import Mathlib

/-!
Verification of the `Project` persistence layer of `pre_workbench`
(`src/pre_workbench/project.py`): a SQLite-backed store of named option
values (serialized through the `xdrm` structured-serialization codec) and
of byte-range annotations grouped into named sets, plus the
`getRelativePath` path helper built on `os.path.relpath`.

The database state is embedded as explicit data: the `options` table is a
list of `(name, value-blob)` rows and the `annotations` table a list of
`AnnotRow` records; SQL statements become list operations matching SQLite
semantics (`REPLACE INTO` deletes the conflicting row and inserts,
`INSERT` assigns max-rowid-plus-one, `SELECT ... WHERE` filters).
-/

namespace PreWorkbench

/-- Modelled from the spec: the `xdrm` structured-serialization codec
(module `pre_workbench.structinfo.xdrm`, not part of the provided source)
which, per the spec, encodes and decodes arbitrary values to and from an
opaque blob of bytes ("a structured-serialization codec (encode/decode
arbitrary values to/from bytes)"). Values are modelled as a small universe
of scalars. -/
inductive XValue where
  | xnull : XValue
  | xbool : Bool → XValue
  | xint : Int → XValue
  | xstr : String → XValue
deriving DecidableEq

/-- Modelled from the spec: `xdrm.dumps`, the encoding half of the codec;
a tagged byte-list encoding. -/
def xdrm_dumps : XValue → List Nat
  | XValue.xnull => [0]
  | XValue.xbool false => [1, 0]
  | XValue.xbool true => [1, 1]
  | XValue.xint n => if 0 ≤ n then [2, 0, n.toNat] else [2, 1, (-n).toNat]
  | XValue.xstr s => 3 :: s.data.map Char.toNat

/-- Modelled from the spec: `xdrm.loads`, the decoding half of the codec;
`none` models a deserialization error (`SerializationError`). -/
def xdrm_loads : List Nat → Option XValue
  | [0] => some XValue.xnull
  | [1, 0] => some (XValue.xbool false)
  | [1, 1] => some (XValue.xbool true)
  | [2, 0, m] => some (XValue.xint (Int.ofNat m))
  | [2, 1, m] => some (XValue.xint (-(Int.ofNat m)))
  | 3 :: cs => some (XValue.xstr (String.mk (cs.map Char.ofNat)))
  | _ => none

/-- JSON values appearing in an annotation's metadata mapping, modelling
the value universe fed to Python's `json.dumps` in the `Project` method `storeAnnotation`
(the store itself only ever adds the integer `rowid`). -/
inductive JValue where
  | jnull : JValue
  | jbool : Bool → JValue
  | jint : Int → JValue
  | jstr : String → JValue
deriving DecidableEq

/-- Escape of one character inside a JSON string literal, as done by
Python's `json.dumps` for the quote and backslash characters. -/
def jsonEscape (c : Char) : String :=
  if c = '"' then "\\\"" else if c = '\\' then "\\\\" else String.singleton c

/-- A JSON string literal: quotes around the escaped characters. -/
def jsonQuote (s : String) : String :=
  "\"" ++ String.join (s.data.map jsonEscape) ++ "\""

/-- Serialization of one JSON value, as Python's `json.dumps` renders it. -/
def jsonValue : JValue → String
  | JValue.jnull => "null"
  | JValue.jbool true => "true"
  | JValue.jbool false => "false"
  | JValue.jint n => toString n
  | JValue.jstr s => jsonQuote s

/-- An annotation's metadata mapping: a Python `dict` with string keys, in
insertion order (Python dicts preserve insertion order). -/
abbrev MetaDict := List (String × JValue)

/-- One `"key": value` member of a serialized JSON object, with the
`': '` separator Python's `json.dumps` uses by default. -/
def jsonEntry (e : String × JValue) : String :=
  jsonQuote e.1 ++ ": " ++ jsonValue e.2

/-- The members of a serialized JSON object joined by `', '`, the default
item separator of Python's `json.dumps`. -/
def jsonEntries : MetaDict → String
  | [] => ""
  | [e] => jsonEntry e
  | e :: rest => jsonEntry e ++ ", " ++ jsonEntries rest

/-- Python's `json.dumps` on a dict with string keys: the members in
insertion order inside braces. -/
def jsonDumps (md : MetaDict) : String :=
  "\x7b" ++ jsonEntries md ++ "\x7d"

/-- Python dict assignment `md[k] = v`: update the value in place if the
key is present (keeping its position), otherwise append the new key at the
end (Python dicts append new keys in insertion order). -/
def metaSet (md : MetaDict) (k : String) (v : JValue) : MetaDict :=
  match md with
  | [] => [(k, v)]
  | (k', v') :: rest =>
    if k' = k then (k', v) :: rest else (k', v') :: metaSet rest k v

/-- The in-memory range object passed to the `Project` method `storeAnnotation`
(class `Range` of `pre_workbench.objects`; only the fields the store
touches are modelled: `start`, `end` and the `metadata` dict). -/
structure «Range» where
  start : Int
  «end» : Int
  metadata : MetaDict
deriving DecidableEq

/-- One row of the `annotations` table:
`(rowid INTEGER PRIMARY KEY, set_name TEXT, start INTEGER, end INTEGER,
meta TEXT)`; `meta` holds JSON-encoded text. -/
structure AnnotRow where
  rowid : Int
  set_name : String
  start : Int
  «end» : Int
  meta : String
deriving DecidableEq

/-- The state of a `Project`: its directory and the contents of the two
tables of the `.pre_workbench` SQLite database. The `options` table maps
`name` (TEXT PRIMARY KEY) to a serialized `value` blob. -/
structure ProjectState where
  projectFolder : String
  options : List (String × List Nat)
  annotations : List AnnotRow
deriving DecidableEq

/-- A freshly opened project on an empty directory: `initDb` created the
two tables, both empty. -/
def emptyProject (dirName : String) : ProjectState :=
  ⟨dirName, [], []⟩

/-- One step of POSIX path normalization over already-split components of
an absolute path (`os.path.normpath`): `'.'` is dropped, `'..'` removes
the previous component (at the root it is dropped), anything else is
kept. -/
def normStep (acc : List String) (c : String) : List String :=
  if c = "." then acc
  else if c = ".." then acc.dropLast
  else acc ++ [c]

/-- Python's `str.split('/')` on the character list of a string: the
maximal runs between `'/'` separators, empty runs included. -/
def splitSlash : List Char → List (List Char)
  | [] => [[]]
  | c :: rest =>
    match splitSlash rest, decide (c = '/') with
    | r, true => [] :: r
    | [], false => [[c]]
    | h :: t, false => (c :: h) :: t

/-- Python's `str.startswith(pre)`. -/
def pyStartsWith (s pre : String) : Bool :=
  pre.data.isPrefixOf s.data

/-- The normalized component list of an absolute POSIX path: split on
`'/'`, drop empty components, resolve `'.'` and `'..'`. This is the
`[x for x in abspath(p).split(sep) if x]` list built by
`posixpath.relpath` for an absolute `p`. -/
def absComponents (p : String) : List String :=
  (((splitSlash p.data).map (fun cs => String.mk cs)).filter
    (fun c => c ≠ "")).foldl normStep []

/-- Length of the longest common prefix of two component lists
(`os.path.commonprefix` applied to the two lists in `posixpath.relpath`). -/
def commonPrefixLen : List String → List String → Nat
  | a :: as, b :: bs => if a = b then commonPrefixLen as bs + 1 else 0
  | _, _ => 0

/-- Python's `os.path.relpath(path, start)` on POSIX for absolute `path`
and `start`: walk up from `start` to the common ancestor with `'..'`
markers, then down to `path`; `'.'` if the two coincide. -/
def relpath (path start : String) : String :=
  let pl := absComponents path
  let sl := absComponents start
  let i := commonPrefixLen sl pl
  let rel := List.replicate (sl.length - i) ".." ++ pl.drop i
  if rel = [] then "." else String.intercalate "/" rel

/-- `Project.getRelativePath`: the path made relative to the project
folder, except that a result starting with `".."` is replaced by the
unchanged input. -/
def getRelativePath (st : ProjectState) (absolutePath : String) : String :=
  let path := relpath absolutePath st.projectFolder
  if pyStartsWith path ".." then absolutePath else path

/-- `Project.getValue`: `SELECT value FROM options WHERE name = ?`; the
found blob is deserialized through `xdrm.loads` (where `none` models the
deserialization raising), otherwise `defaultValue` is returned. -/
def getValue (st : ProjectState) (key : String) (defaultValue : XValue) :
    Option XValue :=
  match st.options.lookup key with
  | some blob => xdrm_loads blob
  | none => some defaultValue

/-- `Project.setValue`: `REPLACE INTO options (name, value) VALUES (?,?)`
with the `xdrm.dumps` serialization of `value`. SQLite's `REPLACE` deletes
any row conflicting on the primary key `name` and inserts the new row. -/
def setValue (st : ProjectState) (key : String) (value : XValue) :
    ProjectState :=
  ⟨st.projectFolder,
   (st.options.filter (fun e => e.1 ≠ key)) ++ [(key, xdrm_dumps value)],
   st.annotations⟩

/-- `Project.getAnnotationSetNames`:
`SELECT DISTINCT set_name FROM annotations` — the distinct set names, each
once (order unspecified by the design). -/
def getAnnotationSetNames (st : ProjectState) : List String :=
  (st.annotations.map (fun a => a.set_name)).dedup

/-- `Project.getAnnotations`: `SELECT rowid, start, end, meta FROM
annotations WHERE set_name = ?` — the matching rows as tuples, `meta`
still the stored JSON text. -/
def getAnnotations (st : ProjectState) (set_name : String) :
    List (Int × Int × Int × String) :=
  (st.annotations.filter (fun a => a.set_name = set_name)).map
    (fun a => (a.rowid, a.start, a.«end», a.meta))

/-- The rowid SQLite assigns to a plain `INSERT` into a table whose
`rowid` is the `INTEGER PRIMARY KEY`: one more than the largest rowid in
use, `1` for an empty table. -/
def nextRowid (anns : List AnnotRow) : Int :=
  (anns.foldr (fun r acc => max r.rowid acc) 0) + 1

/-- the `Project` method `storeAnnotation`: if the range's metadata holds a `'rowid'`
key, `REPLACE INTO annotations (rowid, set_name, start, end, meta)` at
that rowid (SQLite deletes the row conflicting on the primary key and
inserts); otherwise `INSERT` a new row with a fresh rowid. Either way the
metadata is serialized with `json.dumps` before `cur.lastrowid` is then
written back into the caller's `range.metadata['rowid']`. Returns the new
database state and the mutated range object; `none` models a database
error for a non-integer `'rowid'` value. -/
def storeAnnotation (st : ProjectState) (set_name : String) (r : «Range») :
    Option (ProjectState × «Range») :=
  match r.metadata.lookup "rowid" with
  | some (JValue.jint rid) =>
    some (⟨st.projectFolder, st.options,
           (st.annotations.filter (fun a => a.rowid ≠ rid)) ++
             [⟨rid, set_name, r.start, r.«end», jsonDumps r.metadata⟩]⟩,
          ⟨r.start, r.«end», metaSet r.metadata "rowid" (JValue.jint rid)⟩)
  | some _ => none
  | none =>
    let rid := nextRowid st.annotations
    some (⟨st.projectFolder, st.options,
           st.annotations ++
             [⟨rid, set_name, r.start, r.«end», jsonDumps r.metadata⟩]⟩,
          ⟨r.start, r.«end», metaSet r.metadata "rowid" (JValue.jint rid)⟩)

/-- A sequence of `setValue` calls applied in order. -/
def applySetValues (st : ProjectState) (ops : List (String × XValue)) :
    ProjectState :=
  ops.foldl (fun s e => setValue s e.1 e.2) st

/-- Number of rows of an options table carrying a given name. -/
def countName (opts : List (String × List Nat)) (name : String) : Nat :=
  (opts.filter (fun e => e.1 = name)).length

/-- The state of a fresh project after one annotation is stored under
`"set1"` and one under `"set2"`. -/
def twoSetState : ProjectState :=
  match storeAnnotation (emptyProject "/p") "set1" ⟨0, 1, []⟩ with
  | some (st1, _) =>
    match storeAnnotation st1 "set2" ⟨2, 3, []⟩ with
    | some (st2, _) => st2
    | none => st1
  | none => emptyProject "/p"

/-- The codec round-trips: decoding an encoded value yields the value back
(the spec's "structured-serialization format" is assumed lossless, which
this model realizes). -/
theorem xdrm_roundtrip (v : XValue) : xdrm_loads (xdrm_dumps v) = some v := by
  cases v with
  | xnull => rfl
  | xbool b => cases b <;> rfl
  | xint n =>
    by_cases h : 0 ≤ n
    · simp [xdrm_dumps, h, xdrm_loads, Int.toNat_of_nonneg h]
    · have h2 : 0 ≤ -n := by omega
      simp [xdrm_dumps, h, xdrm_loads, Int.toNat_of_nonneg h2]
  | xstr s =>
    simp [xdrm_dumps, xdrm_loads, Function.comp_def, Char.ofNat_toNat]

/-- Looking up `K` after `REPLACE INTO` finds exactly the freshly written
blob: the filter removed every row named `K` and the new row is at the
end. -/
theorem lookup_filter_append (l : List (String × List Nat)) (K : String)
    (b : List Nat) :
    ((l.filter (fun e => e.1 ≠ K)) ++ [(K, b)]).lookup K = some b := by
  induction l with
  | nil => simp [List.lookup]
  | cons e t ih =>
    obtain ⟨k, v⟩ := e
    by_cases h : k = K
    · simpa [List.filter, h] using ih
    · have hd : (decide (k = K)) = false := by simpa using h
      have hb : (K == k) = false := by simpa using fun hh => h hh.symm
      simp only [List.filter, hd, decide_not, Bool.not_false, List.cons_append]
      simpa [List.lookup, hb] using ih

/-- Lookup of a key appended at the end of a mapping that did not contain
it. -/
theorem lookup_append_single (md : MetaDict) (k : String) (v : JValue)
    (h : md.lookup k = none) : (md ++ [(k, v)]).lookup k = some v := by
  induction md with
  | nil => simp [List.lookup]
  | cons e t ih =>
    obtain ⟨k', v'⟩ := e
    by_cases hk : k = k'
    · simp [List.lookup, hk] at h
    · have hb : (k == k') = false := by simpa using hk
      simp only [List.lookup, hb] at h
      simpa [List.lookup, hb] using ih h

/-- Python dict assignment of a value the dict already maps the key to
leaves the dict unchanged. -/
theorem metaSet_eq_self (md : MetaDict) (k : String) (v : JValue)
    (h : md.lookup k = some v) : metaSet md k v = md := by
  induction md with
  | nil => simp [List.lookup] at h
  | cons e t ih =>
    obtain ⟨k', v'⟩ := e
    by_cases hk : k' = k
    · subst hk
      simp [List.lookup] at h
      simp [metaSet, h]
    · have hb : (k == k') = false := by
        simpa using fun hh => hk hh.symm
      simp only [List.lookup, hb] at h
      simp [metaSet, hk, ih h]

/-- Python dict assignment of a key the dict does not contain appends the
pair at the end. -/
theorem metaSet_eq_append (md : MetaDict) (k : String) (v : JValue)
    (h : md.lookup k = none) : metaSet md k v = md ++ [(k, v)] := by
  induction md with
  | nil => simp [metaSet]
  | cons e t ih =>
    obtain ⟨k', v'⟩ := e
    by_cases hk : k' = k
    · subst hk
      simp [List.lookup] at h
    · have hb : (k == k') = false := by
        simpa using fun hh => hk hh.symm
      simp only [List.lookup, hb] at h
      simp [metaSet, hk, ih h]

/-- A serialized JSON object member is never empty text. -/
theorem jsonEntry_length_pos (e : String × JValue) :
    0 < (jsonEntry e).length := by
  unfold jsonEntry jsonQuote
  simp only [String.length_append]
  have h1 : ("\"" : String).length = 1 := rfl
  have h2 : (": " : String).length = 2 := rfl
  omega

/-- Appending a member to a JSON object strictly lengthens its serialized
text. -/
theorem jsonEntries_length_lt (md : MetaDict) (e : String × JValue) :
    (jsonEntries md).length < (jsonEntries (md ++ [e])).length := by
  induction md with
  | nil => simpa [jsonEntries] using jsonEntry_length_pos e
  | cons a t ih =>
    cases t with
    | nil =>
      have he := jsonEntry_length_pos e
      have hsep : (", " : String).length = 2 := rfl
      simp [jsonEntries, String.length_append, hsep]
      omega
    | cons b t2 =>
      have hsep : (", " : String).length = 2 := rfl
      simp only [List.cons_append] at *
      simp [jsonEntries, String.length_append, hsep] at ih ⊢
      omega

/-- A JSON object gains a member: its serialized text changes. -/
theorem jsonDumps_append_ne (md : MetaDict) (e : String × JValue) :
    jsonDumps (md ++ [e]) ≠ jsonDumps md := by
  intro hcontra
  have h1 := jsonEntries_length_lt md e
  have h2 : (jsonDumps (md ++ [e])).length = (jsonDumps md).length := by
    rw [hcontra]
  simp [jsonDumps, String.length_append] at h2
  omega

/-- After the `REPLACE` filter no row named `K` remains. -/
theorem countName_filter_self (l : List (String × List Nat)) (K : String) :
    countName (l.filter (fun e => e.1 ≠ K)) K = 0 := by
  induction l with
  | nil => rfl
  | cons e t ih =>
    obtain ⟨k, v⟩ := e
    by_cases h : k = K <;> simpa [countName, List.filter, h] using ih

/-- The `REPLACE` filter does not touch rows named differently. -/
theorem countName_filter_other (l : List (String × List Nat)) (K n : String)
    (h : n ≠ K) :
    countName (l.filter (fun e => e.1 ≠ K)) n = countName l n := by
  induction l with
  | nil => rfl
  | cons e t ih =>
    obtain ⟨k, v⟩ := e
    by_cases hk : k = K
    · subst hk
      have hkn : ¬ (k = n) := fun hh => h hh.symm
      simpa [countName, List.filter_cons, hkn] using ih
    · by_cases hkn : k = n <;>
        simpa [countName, List.filter_cons, hk, hkn, h] using ih

/-- Row count per name after one `setValue`: exactly one row for the
written key, unchanged elsewhere. -/
theorem countName_setValue (st : ProjectState) (K : String) (V : XValue)
    (n : String) :
    countName (setValue st K V).options n =
      if n = K then 1 else countName st.options n := by
  by_cases h : n = K
  · subst h
    have h0 := countName_filter_self st.options n
    simp only [countName] at h0 ⊢
    simp [setValue, List.filter_append, h0, List.filter]
  · have ho := countName_filter_other st.options K n h
    have hKn : ¬ (K = n) := fun hh => h hh.symm
    simp only [countName] at ho ⊢
    simp only [List.filter_filter, decide_not] at ho
    simp [setValue, List.filter_append, List.filter_cons, h, hKn, ho]

/-- Every rowid in the table is bounded by the running maximum computed
for `nextRowid`. -/
theorem rowid_le_fold (l : List AnnotRow) (a : AnnotRow) (ha : a ∈ l) :
    a.rowid ≤ l.foldr (fun r acc => max r.rowid acc) 0 := by
  induction l with
  | nil => cases ha
  | cons b t ih =>
    rcases List.mem_cons.mp ha with h | h
    · subst h; exact le_max_left _ _
    · exact le_trans (ih h) (le_max_right _ _)

/-- Rows surviving the `REPLACE` filter at `rid` never carry `rid`. -/
theorem filter_rowid_self (l : List AnnotRow) (rid : Int) :
    (l.filter (fun a => a.rowid ≠ rid)).filter (fun a => a.rowid = rid)
      = [] := by
  induction l with
  | nil => rfl
  | cons a t ih =>
    by_cases h : a.rowid = rid <;> simpa [List.filter, h] using ih

/-- In the `SELECT` result over rows surviving the `REPLACE` filter, no
tuple carries the replaced rowid. -/
theorem select_filter_rowid_nil (l : List AnnotRow) (rid : Int)
    (S : String) :
    ((((l.filter (fun a => a.rowid ≠ rid)).filter
        (fun a => a.set_name = S)).map
          (fun a => (a.rowid, a.start, a.«end», a.meta))).filter
            (fun t => t.1 = rid)) = [] := by
  induction l with
  | nil => rfl
  | cons a t ih =>
    by_cases h : a.rowid = rid
    · simpa [List.filter, h] using ih
    · by_cases hs : a.set_name = S
      · simpa [List.filter, h, hs] using ih
      · simpa [List.filter, h, hs] using ih

/-- C1: for every key `K`, value `V` and default `D`, `setValue(K, V)`
followed by `getValue(K, D)` on the same project returns a value equal to
`V`, independent of `D` — the set/get round-trip through the
structured-serialization codec. -/
theorem setValue_getValue_roundtrip (st : ProjectState) (K : String)
    (V D : XValue) : getValue (setValue st K V) K D = some V := by
  simp only [getValue, setValue]
  rw [lookup_filter_append]
  exact xdrm_roundtrip V

/-- C6: for every key `K` that was never set (no row named `K` in the
options table) and every default `D`, `getValue(K, D)` returns `D`; the
missing key does not raise. -/
theorem getValue_default_when_missing (st : ProjectState) (K : String)
    (D : XValue) (h : st.options.lookup K = none) :
    getValue st K D = some D := by
  simp [getValue, h]

/-- Witness for C6 at a fresh project and the key `"k"`. -/
theorem getValue_default_when_missing_witness :
    getValue (emptyProject "/p") "k" (XValue.xint 42) =
      some (XValue.xint 42) :=
  getValue_default_when_missing (emptyProject "/p") "k" (XValue.xint 42) rfl

/-- C5: `getRelativePath(P)` returns `P` made relative to the project
directory (per `os.path.relpath`), except that a computed relative path
starting with the parent-traversal marker `".."` makes it return the
original absolute path unchanged; it is a pure function of the state. In
particular, on a project at `/proj`, `/proj/sub/file.bin` maps to
`sub/file.bin` and `/other/file.bin` is returned unchanged. -/
theorem getRelativePath_relativizes (st : ProjectState) (P : String) :
    (pyStartsWith (relpath P st.projectFolder) ".." = true →
      getRelativePath st P = P) ∧
    (pyStartsWith (relpath P st.projectFolder) ".." = false →
      getRelativePath st P = relpath P st.projectFolder) ∧
    getRelativePath (emptyProject "/proj") "/proj/sub/file.bin" =
      "sub/file.bin" ∧
    getRelativePath (emptyProject "/proj") "/other/file.bin" =
      "/other/file.bin" := by
  refine ⟨?_, ?_, by decide, by decide⟩
  · intro h
    simp [getRelativePath, h]
  · intro h
    simp [getRelativePath, h]

/-- Witness for C5: both branches exercised at concrete paths on a
project at `/proj`. -/
theorem getRelativePath_relativizes_witness :
    getRelativePath (emptyProject "/proj") "/other/file.bin" =
      "/other/file.bin" ∧
    getRelativePath (emptyProject "/proj") "/proj/sub/file.bin" =
      relpath "/proj/sub/file.bin" (emptyProject "/proj").projectFolder :=
  ⟨(getRelativePath_relativizes (emptyProject "/proj")
      "/other/file.bin").1 (by decide),
   (getRelativePath_relativizes (emptyProject "/proj")
      "/proj/sub/file.bin").2.1 (by decide)⟩

/-- C10: whenever the computed relative path begins with the two
characters `".."`, `getRelativePath` returns the unchanged absolute path —
also for files inside the project directory whose first component merely
starts with `".."`: on a project at `/proj` the in-project file
`/proj/..hidden` (component list `["proj", "..hidden"]`, relative path
`"..hidden"`) is returned as the absolute `/proj/..hidden`. -/
theorem getRelativePath_dotdot_literal (st : ProjectState) (P : String)
    (h : pyStartsWith (relpath P st.projectFolder) ".." = true) :
    getRelativePath st P = P ∧
    getRelativePath (emptyProject "/proj") "/proj/..hidden" =
      "/proj/..hidden" ∧
    relpath "/proj/..hidden" "/proj" = "..hidden" ∧
    absComponents "/proj/..hidden" = ["proj", "..hidden"] := by
  refine ⟨?_, by decide, by decide, by decide⟩
  simp [getRelativePath, h]

/-- Witness for C10 at the in-project path `/proj/..hidden`. -/
theorem getRelativePath_dotdot_literal_witness :
    getRelativePath (emptyProject "/proj") "/proj/..hidden" =
      "/proj/..hidden" ∧
    getRelativePath (emptyProject "/proj") "/proj/..hidden" =
      "/proj/..hidden" ∧
    relpath "/proj/..hidden" "/proj" = "..hidden" ∧
    absComponents "/proj/..hidden" = ["proj", "..hidden"] :=
  getRelativePath_dotdot_literal (emptyProject "/proj") "/proj/..hidden"
    (by decide)

/-- C2: storing a range whose metadata carries no `'rowid'` key inserts a
new annotation row (its rowid fresh, larger than every existing one),
writes the newly assigned rowid into `range.metadata['rowid']`, and a
subsequent `getAnnotations` on the same set includes a row with that
rowid and the range's `start` and `end`. -/
theorem storeAnnotation_insert_assigns_rowid (st : ProjectState)
    (S : String) (r : «Range») (h : r.metadata.lookup "rowid" = none) :
    storeAnnotation st S r = some
      (⟨st.projectFolder, st.options, st.annotations ++
        [⟨nextRowid st.annotations, S, r.start, r.«end»,
          jsonDumps r.metadata⟩]⟩,
       ⟨r.start, r.«end», r.metadata ++
         [("rowid", JValue.jint (nextRowid st.annotations))]⟩) ∧
    (∀ a ∈ st.annotations, a.rowid < nextRowid st.annotations) ∧
    (r.metadata ++
      [("rowid", JValue.jint (nextRowid st.annotations))]).lookup "rowid" =
      some (JValue.jint (nextRowid st.annotations)) ∧
    (nextRowid st.annotations, r.start, r.«end», jsonDumps r.metadata) ∈
      getAnnotations
        ⟨st.projectFolder, st.options, st.annotations ++
          [⟨nextRowid st.annotations, S, r.start, r.«end»,
            jsonDumps r.metadata⟩]⟩ S := by
  have hm := metaSet_eq_append r.metadata "rowid"
    (JValue.jint (nextRowid st.annotations)) h
  refine ⟨?_, ?_, lookup_append_single _ _ _ h, ?_⟩
  · simp [ storeAnnotation, h, hm]
  · intro a ha
    have hle := rowid_le_fold st.annotations a ha
    unfold nextRowid
    omega
  · simp only [getAnnotations, List.filter_append, List.map_append]
    refine List.mem_append_right _ ?_
    simp [List.filter_cons]

/-- Witness for C2: a rowid-free range stored into a fresh project is
assigned rowid 1, visible in the returned metadata and in a subsequent
`getAnnotations`. -/
theorem storeAnnotation_insert_assigns_rowid_witness :
    storeAnnotation (emptyProject "/p") "set1" (⟨0, 5, []⟩ : «Range») =
      some (⟨"/p", [], [⟨1, "set1", 0, 5, "\x7b\x7d"⟩]⟩,
            ⟨0, 5, [("rowid", JValue.jint 1)]⟩) ∧
    ([("rowid", JValue.jint 1)] : MetaDict).lookup "rowid" =
      some (JValue.jint 1) ∧
    ((1 : Int), (0 : Int), (5 : Int), "\x7b\x7d") ∈
      getAnnotations ⟨"/p", [], [⟨1, "set1", 0, 5, "\x7b\x7d"⟩]⟩ "set1" := by
  obtain ⟨h1, _, h3, h4⟩ :=
    storeAnnotation_insert_assigns_rowid (emptyProject "/p") "set1"
      ⟨0, 5, []⟩ rfl
  exact ⟨h1, h3, h4⟩

/-- C3: storing a range whose metadata already carries a `'rowid'` (as
assigned by a prior store) replaces the row at that rowid instead of
creating a second one: afterwards the table holds exactly one row with
that rowid, `getAnnotations` on the set yields exactly one tuple with
that rowid (carrying the new `start`/`end`), and the returned range —
`metadata['rowid']` included — is unchanged. -/
theorem storeAnnotation_update_in_place (st : ProjectState) (S : String)
    (r : «Range») (rid : Int)
    (h : r.metadata.lookup "rowid" = some (JValue.jint rid)) :
    storeAnnotation st S r = some
      (⟨st.projectFolder, st.options,
        (st.annotations.filter (fun a => a.rowid ≠ rid)) ++
          [⟨rid, S, r.start, r.«end», jsonDumps r.metadata⟩]⟩, r) ∧
    (((st.annotations.filter (fun a => a.rowid ≠ rid)) ++
        ([⟨rid, S, r.start, r.«end», jsonDumps r.metadata⟩] :
          List AnnotRow)).filter
          (fun a => a.rowid = rid)).length = 1 ∧
    (getAnnotations
        ⟨st.projectFolder, st.options,
          (st.annotations.filter (fun a => a.rowid ≠ rid)) ++
            [⟨rid, S, r.start, r.«end», jsonDumps r.metadata⟩]⟩ S).filter
      (fun t => t.1 = rid) =
      [(rid, r.start, r.«end», jsonDumps r.metadata)] := by
  have hm := metaSet_eq_self r.metadata "rowid" (JValue.jint rid) h
  refine ⟨?_, ?_, ?_⟩
  · simp [ storeAnnotation, h, hm]
  · simp [List.filter_append, filter_rowid_self, List.filter_cons]
  · simp only [getAnnotations, List.filter_append, List.map_append]
    rw [select_filter_rowid_nil]
    simp [List.filter_cons]

/-- Witness for C3: re-storing a range that carries rowid 1 with changed
bounds 2..7 replaces the sole existing row; the range object, its
`metadata['rowid']` included, is returned unchanged. -/
theorem storeAnnotation_update_in_place_witness :
    storeAnnotation (⟨"/p", [], [⟨1, "set1", 0, 5, "\x7b\x7d"⟩]⟩ :
        ProjectState) "set1" (⟨2, 7, [("rowid", JValue.jint 1)]⟩ : «Range») =
      some (⟨"/p", [],
          [⟨1, "set1", 2, 7, "\x7b\"rowid\": 1\x7d"⟩]⟩,
        ⟨2, 7, [("rowid", JValue.jint 1)]⟩) ∧
    (([⟨1, "set1", 2, 7, "\x7b\"rowid\": 1\x7d"⟩] : List AnnotRow).filter
        (fun a => a.rowid = 1)).length = 1 ∧
    (getAnnotations
        ⟨"/p", [], [⟨1, "set1", 2, 7, "\x7b\"rowid\": 1\x7d"⟩]⟩
        "set1").filter (fun t => t.1 = 1) =
      [((1 : Int), (2 : Int), (7 : Int), "\x7b\"rowid\": 1\x7d")] := by
  obtain ⟨h1, h2, h3⟩ :=
    storeAnnotation_update_in_place
      ⟨"/p", [], [⟨1, "set1", 0, 5, "\x7b\x7d"⟩]⟩ "set1"
      ⟨2, 7, [("rowid", JValue.jint 1)]⟩ 1 rfl
  exact ⟨h1, h2, h3⟩

/-- C4: the row inserted for a rowid-free range persists the JSON text of
the metadata without any `'rowid'` key (the rowid is written into the
in-memory mapping only after serialization); re-storing the same —
otherwise unchanged — range then persists metadata that does contain the
`'rowid'` key, so the stored `meta` text changes between the two stores. -/
theorem storeAnnotation_meta_text_changes (st : ProjectState) (S : String)
    (r : «Range») (h : r.metadata.lookup "rowid" = none) :
    storeAnnotation st S r = some
      (⟨st.projectFolder, st.options, st.annotations ++
        [⟨nextRowid st.annotations, S, r.start, r.«end»,
          jsonDumps r.metadata⟩]⟩,
       ⟨r.start, r.«end», r.metadata ++
         [("rowid", JValue.jint (nextRowid st.annotations))]⟩) ∧
    storeAnnotation
      ⟨st.projectFolder, st.options, st.annotations ++
        [⟨nextRowid st.annotations, S, r.start, r.«end»,
          jsonDumps r.metadata⟩]⟩ S
      ⟨r.start, r.«end», r.metadata ++
        [("rowid", JValue.jint (nextRowid st.annotations))]⟩ = some
      (⟨st.projectFolder, st.options,
        ((st.annotations ++
          ([⟨nextRowid st.annotations, S, r.start, r.«end»,
            jsonDumps r.metadata⟩] : List AnnotRow)).filter
              (fun a => a.rowid ≠ nextRowid st.annotations)) ++
          [⟨nextRowid st.annotations, S, r.start, r.«end»,
            jsonDumps (r.metadata ++
              [("rowid", JValue.jint (nextRowid st.annotations))])⟩]⟩,
       ⟨r.start, r.«end», r.metadata ++
         [("rowid", JValue.jint (nextRowid st.annotations))]⟩) ∧
    (r.metadata ++
      [("rowid", JValue.jint (nextRowid st.annotations))]).lookup "rowid" =
      some (JValue.jint (nextRowid st.annotations)) ∧
    jsonDumps (r.metadata ++
      [("rowid", JValue.jint (nextRowid st.annotations))]) ≠
      jsonDumps r.metadata := by
  have hm := metaSet_eq_append r.metadata "rowid"
    (JValue.jint (nextRowid st.annotations)) h
  have hlook : (r.metadata ++
      [("rowid", JValue.jint (nextRowid st.annotations))]).lookup "rowid" =
      some (JValue.jint (nextRowid st.annotations)) :=
    lookup_append_single _ _ _ h
  have hm2 := metaSet_eq_self
    (r.metadata ++ [("rowid", JValue.jint (nextRowid st.annotations))])
    "rowid" (JValue.jint (nextRowid st.annotations)) hlook
  refine ⟨?_, ?_, hlook, jsonDumps_append_ne r.metadata _⟩
  · simp [ storeAnnotation, h, hm]
  · simp [ storeAnnotation, hlook, hm2]

/-- Witness for C4: a range with metadata `{"color": "red"}` is first
persisted with meta text lacking `rowid`; re-storing it persists
`{"color": "red", "rowid": 1}`, a different text. -/
theorem storeAnnotation_meta_text_changes_witness :
    storeAnnotation (emptyProject "/p") "set1"
      (⟨0, 5, [("color", JValue.jstr "red")]⟩ : «Range») = some
      (⟨"/p", [],
        [⟨1, "set1", 0, 5, "\x7b\"color\": \"red\"\x7d"⟩]⟩,
       ⟨0, 5, [("color", JValue.jstr "red"), ("rowid", JValue.jint 1)]⟩) ∧
    storeAnnotation
      ⟨"/p", [], [⟨1, "set1", 0, 5, "\x7b\"color\": \"red\"\x7d"⟩]⟩
      "set1"
      (⟨0, 5, [("color", JValue.jstr "red"),
        ("rowid", JValue.jint 1)]⟩ : «Range») = some
      (⟨"/p", [],
        [⟨1, "set1", 0, 5, "\x7b\"color\": \"red\", \"rowid\": 1\x7d"⟩]⟩,
       ⟨0, 5, [("color", JValue.jstr "red"), ("rowid", JValue.jint 1)]⟩) ∧
    jsonDumps [("color", JValue.jstr "red"), ("rowid", JValue.jint 1)] ≠
      jsonDumps [("color", JValue.jstr "red")] := by
  obtain ⟨h1, h2, _, h4⟩ :=
    storeAnnotation_meta_text_changes (emptyProject "/p") "set1"
      ⟨0, 5, [("color", JValue.jstr "red")]⟩ rfl
  refine ⟨?_, ?_, ?_⟩
  · exact h1
  · exact h2
  · exact h4

/-- The at-most-one-row-per-name invariant of the options table is
preserved by any sequence of `setValue` calls. -/
theorem countName_applySetValues (ops : List (String × XValue)) :
    ∀ st : ProjectState, (∀ n, countName st.options n ≤ 1) →
      ∀ n, countName (applySetValues st ops).options n ≤ 1 := by
  induction ops with
  | nil => intro st h n; exact h n
  | cons op t ih =>
    intro st h n
    have hstep : ∀ m, countName (setValue st op.1 op.2).options m ≤ 1 := by
      intro m
      rw [countName_setValue]
      by_cases hm : m = op.1
      · simp [hm]
      · simpa [hm] using h m
    have hcons : applySetValues st (op :: t) =
        applySetValues (setValue st op.1 op.2) t := rfl
    rw [hcons]
    exact ih (setValue st op.1 op.2) hstep n

/-- C7: `setValue(K, V1)` then `setValue(K, V2)` then `getValue(K, D)`
returns `V2` for any default (last-write-wins upsert), and the options
table keeps at most one row per name across any sequence of `setValue`
calls. -/
theorem setValue_last_write_wins (st : ProjectState) (K : String)
    (V1 V2 D : XValue) (ops : List (String × XValue)) :
    getValue (setValue (setValue st K V1) K V2) K D = some V2 ∧
    ((∀ n, countName st.options n ≤ 1) →
      ∀ n, countName (applySetValues st ops).options n ≤ 1) := by
  constructor
  · simp only [getValue, setValue]
    rw [lookup_filter_append]
    exact xdrm_roundtrip V2
  · exact fun h => countName_applySetValues ops st h

/-- Witness for C7: two writes to `"k"` on a fresh project read back the
second value, and the row-per-name bound holds after a two-write
sequence. -/
theorem setValue_last_write_wins_witness :
    getValue (setValue (setValue (emptyProject "/p") "k" (XValue.xint 1))
        "k" (XValue.xint 2)) "k" XValue.xnull = some (XValue.xint 2) ∧
    countName (applySetValues (emptyProject "/p")
        [("a", XValue.xint 3), ("a", XValue.xint 4)]).options "a" ≤ 1 := by
  have h := setValue_last_write_wins (emptyProject "/p") "k"
    (XValue.xint 1) (XValue.xint 2) XValue.xnull
    [("a", XValue.xint 3), ("a", XValue.xint 4)]
  exact ⟨h.1, h.2 (fun n => by simp [emptyProject, countName]) "a"⟩

/-- C8: `getAnnotations(S)` returns the tuples
`(rowid, start, end, meta)` of exactly the annotation rows whose
`set_name` equals `S`, with `meta` the stored JSON text, undecoded. -/
theorem getAnnotations_rows_of_set (st : ProjectState) (S : String)
    (rid s e : Int) (m : String) :
    (rid, s, e, m) ∈ getAnnotations st S ↔
      (⟨rid, S, s, e, m⟩ : AnnotRow) ∈ st.annotations := by
  simp only [getAnnotations, List.mem_map, List.mem_filter]
  constructor
  · rintro ⟨a, ⟨ha, hset⟩, heq⟩
    obtain ⟨ar, an, as, ae, am⟩ := a
    simp only [Prod.mk.injEq] at heq
    simp only [decide_eq_true_eq] at hset
    obtain ⟨h1, h2, h3, h4⟩ := heq
    subst h1; subst h2; subst h3; subst h4; subst hset
    exact ha
  · intro hmem
    exact ⟨⟨rid, S, s, e, m⟩, ⟨hmem, by simp⟩, rfl⟩

/-- C9: `getAnnotationSetNames()` lists the distinct `set_name` values of
the annotations table, each exactly once (no duplicates, membership is
presence in the table); it is empty on a fresh project and yields
`set1`, `set2` after annotations were stored under those two names. -/
theorem getAnnotationSetNames_distinct (st : ProjectState) (d : String) :
    (getAnnotationSetNames st).Nodup ∧
    (∀ s, s ∈ getAnnotationSetNames st ↔
      ∃ a ∈ st.annotations, a.set_name = s) ∧
    getAnnotationSetNames (emptyProject d) = [] ∧
    getAnnotationSetNames twoSetState = ["set1", "set2"] := by
  refine ⟨List.nodup_dedup _, ?_, rfl, by decide⟩
  intro s
  simp [getAnnotationSetNames, List.mem_dedup, List.mem_map]

end PreWorkbench
